import Mathlib

/-
  Verification of fishutils (a script for semi-automatic code changes in
  Stockfish sources) against its specification.

  The program text is shallowly embedded: file contents are lists of
  characters, Python string primitives (find / count / slicing / int())
  are modelled with their exact semantics (including the -1 "not found"
  result and negative-index wrap-around of slices), and the regular
  expressions used by the program are transcribed into a small regex AST
  executed by a fuelled backtracking matcher with Python's
  leftmost-then-priority semantics.  Floating point is not modelled: the
  tuning values handled by the claims are integers, on which Python's
  round/floor/ceil are the identity, so the rounding function is an
  arbitrary parameter `fRound : Int → Int`.
-/

set_option maxRecDepth 40000

/-! ### Python string primitives (text as `List Char`) -/

/-- Python `\s` (`str` patterns): space, tab, newline, carriage return,
vertical tab, form feed. -/
def isPySpace (c : Char) : Bool :=
  c = ' ' || c = '\t' || c = '\n' || c = '\r' || c = '\x0b' || c = '\x0c'

/-- Python `\w` for `str` patterns: `[a-zA-Z0-9_]`. -/
def isWordChar (c : Char) : Bool := c.isAlphanum || c = '_'

/-- Normalise a Python slice bound: negative indices count from the end
(floored at 0), positive ones are clamped to the length. -/
def pyBound (len : Nat) (i : Int) : Nat :=
  if i < 0 then ((len : Int) + i).toNat else min i.toNat len

/-- Python `s[a:b]`. -/
def pySlice (s : List Char) (a b : Int) : List Char :=
  (s.take (pyBound s.length b)).drop (pyBound s.length a)

/-- Python `s[a:]`. -/
def pyDropFrom (s : List Char) (a : Int) : List Char := s.drop (pyBound s.length a)

/-- Python `s[:b]`. -/
def pyTakeTo (s : List Char) (b : Int) : List Char := s.take (pyBound s.length b)

def findCharFrom : List Char → Char → Nat → Option Nat
  | [], _, _ => none
  | c :: cs, t, i => if c = t then some i else findCharFrom cs t (i+1)

/-- Python `s.find(c, start)` for a one-character needle: the least index
`≥ start` (after slice normalisation of `start`) holding `c`, else `-1`. -/
def pyFindChar (s : List Char) (c : Char) (start : Int) : Int :=
  match findCharFrom (s.drop (pyBound s.length start)) c 0 with
  | some k => Int.ofNat (pyBound s.length start + k)
  | none => -1

/-- Does the substring `t` occur in `s` at index `i`? -/
def subAt (s t : List Char) (i : Nat) : Bool := (s.drop i).take t.length == t

def pyFindSubAux (s t : List Char) : Nat → Nat → Int
  | _, 0 => -1
  | i, fuel+1 => if subAt s t i then Int.ofNat i else pyFindSubAux s t (i+1) fuel

/-- Python `s.find(t)` for an arbitrary needle. -/
def pyFindSub (s t : List Char) : Int := pyFindSubAux s t 0 (s.length + 1)

/-- Python `s.count(c, a, b)` for a one-character needle. -/
def pyCountChar (s : List Char) (c : Char) (a b : Int) : Nat :=
  (pySlice s a b).count c

/-- Python `t in s` (substring containment). -/
def pySubstr (t s : List Char) : Bool := pyFindSub s t != -1

/-- Value of a (non-empty) string of decimal digits. -/
def digitsToNat (l : List Char) : Nat := l.foldl (fun n c => 10 * n + (c.toNat - 48)) 0

/-- Python `int(s)`: strip whitespace, optional sign, at least one digit,
nothing else; `none` models the `ValueError`. -/
def pyInt? (s : List Char) : Option Int :=
  match ((s.dropWhile isPySpace).reverse.dropWhile isPySpace).reverse with
  | [] => none
  | c :: r =>
    if c = '-' then
      if r ≠ [] ∧ r.all Char.isDigit then some (-(digitsToNat r : Int)) else none
    else if c = '+' then
      if r ≠ [] ∧ r.all Char.isDigit then some ((digitsToNat r : Int)) else none
    else
      if (c :: r).all Char.isDigit then some ((digitsToNat (c :: r) : Int)) else none

/-- Python `v.rjust(w)` (pad on the left with spaces; never truncates). -/
def pyRjust (v : List Char) (w : Nat) : List Char := List.replicate (w - v.length) ' ' ++ v

/-- Decimal text of an integer, as produced by Python `str(int)`. -/
def intStr (i : Int) : List Char := (toString i).data

/-- Python `os.path.commonprefix` of two strings. -/
def commonPfx : List Char → List Char → List Char
  | a :: as, b :: bs => if a = b then a :: commonPfx as bs else []
  | _, _ => []

/-- Python `s.rstrip(',')`. -/
def rstripComma (l : List Char) : List Char := (l.reverse.dropWhile (· = ',')).reverse

def splitNLAux (acc : List Char) : List Char → List (List Char)
  | [] => [acc.reverse]
  | c :: cs => if c = '\n' then acc.reverse :: splitNLAux [] cs else splitNLAux (c :: acc) cs

/-- Python `s.splitlines()` (the sources handled here use `\n` line ends). -/
def pySplitlines (s : List Char) : List (List Char) :=
  match s with
  | [] => []
  | _ =>
    let r := splitNLAux [] s
    if r.getLast? = some [] then r.dropLast else r

/-- Python `"\n".join(lines)`. -/
def joinNL : List (List Char) → List Char
  | [] => []
  | [l] => l
  | l :: ls => l ++ '\n' :: joinNL ls

/-! ### `get_index` (fishutils.py lines 47-53)

`re.search(entry + "\s*=\s*(?P<v>(-)?\d+)", enum)` is transcribed as a
direct scan: the pattern is deterministic, because each greedy piece
(`\s*`, `(-)?`, `\d+`) is followed by a piece that can never match a
character the greedy piece gave up (whitespace is not `=`, `-` is not a
digit, and nothing follows `\d+`), so no backtracking can turn a failed
maximal attempt into a success.  `re.search` therefore returns the first
position at which the maximal-munch scan succeeds. -/

def stripPfx : List Char → List Char → Option (List Char)
  | [], rest => some rest
  | _ :: _, [] => none
  | p :: ps, c :: cs => if c = p then stripPfx ps cs else none

/-- The `(-)?\d+` tail of the pattern: an optional minus sign followed by
a maximal non-empty digit run. -/
def assignNum : List Char → Option Int
  | [] => none
  | c2 :: r5 =>
    if c2 = '-' then
      if r5.takeWhile Char.isDigit = [] then none
      else some (-(digitsToNat (r5.takeWhile Char.isDigit) : Int))
    else
      if (c2 :: r5).takeWhile Char.isDigit = [] then none
      else some ((digitsToNat ((c2 :: r5).takeWhile Char.isDigit) : Int))

/-- The `=\s*(-)?\d+` tail of the pattern. -/
def assignEq : List Char → Option Int
  | [] => none
  | c :: r3 => if c = '=' then assignNum (r3.dropWhile isPySpace) else none

/-- Attempt the pattern `entry\s*=\s*(-)?\d+` at index `i` of `s`;
returns the integer value of the `v` group on success. -/
def assignAt (s entry : List Char) (i : Nat) : Option Int :=
  match stripPfx entry (s.drop i) with
  | none => none
  | some r1 => assignEq (r1.dropWhile isPySpace)

def searchAssignAux (s entry : List Char) : Nat → Nat → Option Int
  | _, 0 => none
  | i, fuel+1 =>
    match assignAt s entry i with
    | some v => some v
    | none => searchAssignAux s entry (i+1) fuel

/-- Search `re.search(entry + "\s*=\s*(?P<v>(-)?\d+)", enum)`, returning
`int(m.group("v"))`. -/
def searchAssign (s entry : List Char) : Option Int := searchAssignAux s entry 0 (s.length + 1)

/-- fishutils.py `get_index`: explicit `entry = <int>` assignment found by
the regex search if present, otherwise `enum[:enum.find(entry)].count(",")`. -/
def get_index (enumText entry : List Char) : Int :=
  match searchAssign enumText entry with
  | some v => v
  | none => Int.ofNat ((pyTakeTo enumText (pyFindSub enumText entry)).count ',')

/-! ### `find_index` (fishutils.py lines 60-80) -/

/-- The `while s.count("{",0,pos_new+1) - s.count("}",0,pos_new+1) > d + 1`
loop; the fuel passed by `findIndexStep` always suffices because `pos_new`
strictly increases until the condition fails or `find` returns `-1`
(after which the counted slice is empty and the condition fails). -/
def braceLoop (s : List Char) (d : Nat) : Nat → Int → Int
  | 0, pn => pn
  | fuel+1, pn =>
    if (pyCountChar s '\x7b' 0 (pn+1) : Int) - (pyCountChar s '\x7d' 0 (pn+1) : Int) > (d : Int) + 1 then
      braceLoop s d fuel (pyFindChar s '\x7d' (pn+1))
    else pn

/-- The `while s.count("(", pos, pos_new+1) - s.count(")", pos, pos_new+1) > 0`
loop. -/
def parenLoop (s : List Char) (pos : Int) : Nat → Int → Int
  | 0, pn => pn
  | fuel+1, pn =>
    if (pyCountChar s '(' pos (pn+1) : Int) - (pyCountChar s ')' pos (pn+1) : Int) > 0 then
      parenLoop s pos fuel (pyFindChar s ')' (pn+1))
    else pn

/-- Body of the inner `for i in range(l[d])` loop of `find_index`. -/
def findIndexStep (s : List Char) (d : Nat) (pos : Int) : Int :=
  let pn := pyFindChar s ',' (pos + 1)
  let pn := braceLoop s d (s.length + 2) pn
  let pn := parenLoop s pos (s.length + 2) pn
  pyFindChar s ',' pn

/-- fishutils.py `find_index`: position of the separator preceding the
array entry selected by the index list `l` inside the definition text `s`. -/
def find_index (s : List Char) (l : List Int) : Int :=
  let pos := pyFindChar s '=' 0
  let pos := pyFindChar s '\x7b' pos + 1
  (l.enum).foldl
    (fun pos di => (List.range di.2.toNat).foldl (fun pos _ => findIndexStep s di.1 pos) pos)
    pos

/-! ### Source files and the repository (fishutils.py lines 83-137)

Only the in-memory mode is embedded (`in_memory = True`): `orig` is the
content read at construction, `curr` the current content.  `read`,
`read_orig` and `diff` return data derived from the two snapshots without
producing a new file state; `save` returns the unchanged file together
with the text that would be flushed to disk. -/

structure SourceFile where
  path : String
  orig : List Char
  curr : List Char
deriving DecidableEq

/-- Constructor `SourceFile.__init__` with `in_memory = True`. -/
def SourceFile.load (path : String) (content : List Char) : SourceFile :=
  ⟨path, content, content⟩

def SourceFile.read (f : SourceFile) : List Char := f.curr

def SourceFile.read_orig (f : SourceFile) : List Char := f.orig

def SourceFile.write (f : SourceFile) (s : List Char) : SourceFile := ⟨f.path, f.orig, s⟩

def SourceFile.save (f : SourceFile) : SourceFile × List Char := (f, f.curr)

/-- The inputs `unified_diff` is computed from (the textual delta itself
is presentation only). -/
def SourceFile.diffPair (f : SourceFile) : List Char × List Char := (f.orig, f.curr)

structure Repository where
  files : List SourceFile
deriving DecidableEq

/-- Mutating `self.files[j]` through `f.write(s)`. -/
def Repository.writeAt (repo : Repository) (j : Nat) (s : List Char) : Repository :=
  match repo.files.get? j with
  | some f => ⟨repo.files.set j (f.write s)⟩
  | none => repo

/-! ### The regex engine

The patterns of fishutils.py are transcribed into this AST and run by a
continuation-passing backtracking matcher implementing Python `re`
semantics: alternatives are tried left to right, `*` is greedy and `*?`
lazy, `(?! )` is a negative lookahead, and `^` matches at the start of
the string or after a newline (all the transcribed patterns either use
`re.MULTILINE` or contain no `^`).  The fuel only bounds the recursion
depth; `engineFuel` vastly exceeds the depth reachable on the strings
handled here. -/

inductive RE where
  | eps : RE
  | chr : Char → RE
  | cls : (Char → Bool) → RE
  | lit : List Char → RE
  | seq : RE → RE → RE
  | alt : RE → RE → RE
  | starG : RE → RE
  | starL : RE → RE
  | optG : RE → RE
  | group : Nat → RE → RE
  | nla : RE → RE
  | bol : RE

def reSeq (l : List RE) : RE := l.foldr RE.seq RE.eps

def rePlus (a : RE) : RE := RE.seq a (RE.starG a)

def reMatch (s : List Char) : Nat → RE → Nat → List (Nat × Nat × Nat) →
    (Nat → List (Nat × Nat × Nat) → Option (Nat × List (Nat × Nat × Nat))) →
    Option (Nat × List (Nat × Nat × Nat))
  | 0, _, _, _, _ => none
  | fuel+1, re, pos, caps, k =>
    match re with
    | .eps => k pos caps
    | .chr c =>
      match s.get? pos with
      | some c2 => if c2 = c then k (pos+1) caps else none
      | none => none
    | .cls p =>
      match s.get? pos with
      | some c2 => if p c2 then k (pos+1) caps else none
      | none => none
    | .lit t => if (s.drop pos).take t.length = t then k (pos + t.length) caps else none
    | .seq a b => reMatch s fuel a pos caps (fun p2 c2 => reMatch s fuel b p2 c2 k)
    | .alt a b =>
      match reMatch s fuel a pos caps k with
      | some r => some r
      | none => reMatch s fuel b pos caps k
    | .starG a =>
      match reMatch s fuel a pos caps
          (fun p2 c2 => if p2 = pos then none else reMatch s fuel (.starG a) p2 c2 k) with
      | some r => some r
      | none => k pos caps
    | .starL a =>
      match k pos caps with
      | some r => some r
      | none =>
        reMatch s fuel a pos caps
          (fun p2 c2 => if p2 = pos then none else reMatch s fuel (.starL a) p2 c2 k)
    | .optG a =>
      match reMatch s fuel a pos caps k with
      | some r => some r
      | none => k pos caps
    | .group n a => reMatch s fuel a pos caps (fun p2 c2 => k p2 ((n, pos, p2) :: c2))
    | .nla a =>
      match reMatch s fuel a pos caps (fun p2 c2 => some (p2, c2)) with
      | some _ => none
      | none => k pos caps
    | .bol =>
      if pos = 0 then k pos caps
      else
        match s.get? (pos - 1) with
        | some c => if c = '\n' then k pos caps else none
        | none => none

def engineFuel : Nat := 3000

/-- A `re` match object: the searched string, the span of the whole
match, and the group captures (latest capture first, as rebinding inside
a loop overwrites earlier ones). -/
structure RMatch where
  str : List Char
  start : Nat
  stop : Nat
  caps : List (Nat × Nat × Nat)
deriving DecidableEq

def capLookup : List (Nat × Nat × Nat) → Nat → Option (Nat × Nat)
  | [], _ => none
  | (m, a, b) :: rest, n => if m = n then some (a, b) else capLookup rest n

/-- Accessor `m.group()`. -/
def RMatch.group0 (m : RMatch) : List Char := (m.str.take m.stop).drop m.start

/-- Accessors `m.start(g), m.end(g)`, `none` when the group did not capture. -/
def RMatch.groupSpan (m : RMatch) (n : Nat) : Option (Nat × Nat) := capLookup m.caps n

/-- Accessor `m.group(g)`, `none` when the group did not capture. -/
def RMatch.groupStr (m : RMatch) (n : Nat) : Option (List Char) :=
  match capLookup m.caps n with
  | some (a, b) => some ((m.str.take b).drop a)
  | none => none

def reSearchAux (s : List Char) (re : RE) : Nat → Nat → Option RMatch
  | _, 0 => none
  | pos, fuel+1 =>
    match reMatch s engineFuel re pos [] (fun p c => some (p, c)) with
    | some (e, caps) => some ⟨s, pos, e, caps⟩
    | none => reSearchAux s re (pos+1) fuel

/-- Search `re.search`: the match at the leftmost starting position admitting one. -/
def reSearch (s : List Char) (re : RE) : Option RMatch := reSearchAux s re 0 (s.length + 1)

/-! ### The transcribed patterns (fishutils.py lines 149, 151, 205-209, 228) -/

/-- Group number of the `type` group. -/
def gType : Nat := 1
/-- Group number of the `def` group. -/
def gDef : Nat := 2
/-- Group number of the `v` group. -/
def gV : Nat := 3
/-- Group number of the `enum` group. -/
def gEnumG : Nat := 4
/-- Group number of the `m` group. -/
def gM : Nat := 5
/-- Group number of the `e` group. -/
def gE : Nat := 6

def isSpTab (c : Char) : Bool := c = ' ' || c = '\t'

def isWordSpTab (c : Char) : Bool := isWordChar c || c = ' ' || c = '\t'

def isWordSpColon (c : Char) : Bool := isWordChar c || isPySpace c || c = ':'

def isDashDigit (c : Char) : Bool := c = '-' || c.isDigit

/-- Class `[^=;\\\{\}\[\]]` of the definition pattern. -/
def isDimChar (c : Char) : Bool :=
  !(c = '=' || c = ';' || c = '\\' || c = '\x7b' || c = '\x7d' || c = '[' || c = ']')

/-- Pattern `"^([\w \t]*\s+|)(?P<type>\w+)\s+" + varname +
"((\[|\s)?(\[[^=;\\\{\}\[\]]*\])*[ \t]*)?=(?P<def>(?!=)[^;]*?);"`
compiled with `re.DOTALL | re.MULTILINE` (unnamed groups are never read
back and are not recorded). -/
def patDef (name : List Char) : RE :=
  reSeq [RE.bol,
    RE.alt (reSeq [RE.starG (RE.cls isWordSpTab), rePlus (RE.cls isPySpace)]) RE.eps,
    RE.group gType (rePlus (RE.cls isWordChar)),
    rePlus (RE.cls isPySpace),
    RE.lit name,
    RE.optG (reSeq [RE.optG (RE.alt (RE.chr '[') (RE.cls isPySpace)),
      RE.starG (reSeq [RE.chr '[', RE.starG (RE.cls isDimChar), RE.chr ']']),
      RE.starG (RE.cls isSpTab)]),
    RE.chr '=',
    RE.group gDef (reSeq [RE.nla (RE.chr '='), RE.starL (RE.cls (· != ';'))]),
    RE.chr ';']

/-- Pattern `"^\s*enum\s*" + r"[\w\s:]*{([^{}]*?(\s|,))?" + varname + "(\s|,|}).*?;"`
compiled with `re.DOTALL | re.MULTILINE` (so `.` also matches newlines). -/
def patEnum (name : List Char) : RE :=
  reSeq [RE.bol,
    RE.starG (RE.cls isPySpace),
    RE.lit "enum".data,
    RE.starG (RE.cls isPySpace),
    RE.starG (RE.cls isWordSpColon),
    RE.chr '\x7b',
    RE.optG (reSeq [RE.starL (RE.cls (fun c => !(c = '\x7b' || c = '\x7d'))),
      RE.alt (RE.cls isPySpace) (RE.chr ',')]),
    RE.lit name,
    RE.alt (RE.cls isPySpace) (RE.alt (RE.chr ',') (RE.chr '\x7d')),
    RE.starL (RE.cls (fun _ => true)),
    RE.chr ';']

/-- Piece `(?:(?!#|//).)*?` with `re.MULTILINE` and no `re.DOTALL`. -/
def lazyJunk : RE :=
  RE.starL (reSeq [RE.nla (RE.alt (RE.chr '#') (RE.lit "//".data)), RE.cls (· != '\n')])

/-- Pattern `"^(?:(?!#|//).)*?(S|make_score)\((?P<m>\s*[-\d]+)\s*,(?P<e>\s*[-\d]+)\s*\)"`. -/
def patValScore : RE :=
  reSeq [RE.bol, lazyJunk,
    RE.alt (RE.lit "S".data) (RE.lit "make_score".data),
    RE.chr '(',
    RE.group gM (reSeq [RE.starG (RE.cls isPySpace), rePlus (RE.cls isDashDigit)]),
    RE.starG (RE.cls isPySpace),
    RE.chr ',',
    RE.group gE (reSeq [RE.starG (RE.cls isPySpace), rePlus (RE.cls isDashDigit)]),
    RE.starG (RE.cls isPySpace),
    RE.chr ')']

/-- Pattern `"^(?:(?!#|//).)*?(((V|Value)\((?P<v>\s*[-\d]+)\s*\))|(?P<enum>\w+))"`. -/
def patValValue : RE :=
  reSeq [RE.bol, lazyJunk,
    RE.alt
      (reSeq [RE.alt (RE.lit "V".data) (RE.lit "Value".data),
        RE.chr '(',
        RE.group gV (reSeq [RE.starG (RE.cls isPySpace), rePlus (RE.cls isDashDigit)]),
        RE.starG (RE.cls isPySpace),
        RE.chr ')'])
      (RE.group gEnumG (rePlus (RE.cls isWordChar)))]

/-- Pattern `"^(?:(?!#|//).)*?((?P<v>[ \t]*[-\d]+)|(?P<enum>\w+))"`. -/
def patValInt : RE :=
  reSeq [RE.bol, lazyJunk,
    RE.alt
      (RE.group gV (reSeq [RE.starG (RE.cls isSpTab), rePlus (RE.cls isDashDigit)]))
      (RE.group gEnumG (rePlus (RE.cls isWordChar)))]

/-- Pattern `enum_name + "\s*=\s*(?P<v>\d+)"` (fishutils.py line 228). -/
def patEnumVal (name : List Char) : RE :=
  reSeq [RE.lit name,
    RE.starG (RE.cls isPySpace),
    RE.chr '=',
    RE.starG (RE.cls isPySpace),
    RE.group gV (rePlus (RE.cls Char.isDigit))]

/-! ### `Repository.search_def` (fishutils.py lines 139-156) -/

def searchDefAux (pat : RE) : List SourceFile → Nat → Option (RMatch × Nat)
  | [], _ => none
  | f :: fs, j =>
    match reSearch f.read pat with
    | some m => some (m, j)
    | none => searchDefAux pat fs (j+1)

/-- Method `Repository.search_def`: scan the files in order with the definition
pattern (or the enum pattern when `isEnum`); the returned index plays the
role of the returned file object. -/
def Repository.search_def (repo : Repository) (varname : List Char) (isEnum : Bool) :
    Option (RMatch × Nat) :=
  searchDefAux (if isEnum then patEnum varname else patDef varname) repo.files 0

/-! ### `Repository.parse_indices` (fishutils.py lines 158-177)

The loop is fuelled by the string length, which always suffices: each
iteration removes at least two characters.  `none` models the
`Exception("Index ... is neither int nor enum.")` escaping the call. -/

/-- Resolution of one bracketed token: `int(i)` if it parses, otherwise
the enum lookup through `search_def`/`get_index`; `none` is the raised
exception. -/
def parseTok (repo : Repository) (tok : List Char) : Option Int :=
  match pyInt? tok with
  | some n => some n
  | none =>
    match repo.search_def tok true with
    | some (m, _) => some (get_index m.group0 tok)
    | none => none

def parseLoop (repo : Repository) : Nat → List Char → Option (List Int)
  | 0, _ => none
  | fuel+1, s =>
    if s = [] then some []
    else
      let p1 := pyFindChar s '[' 0
      let p2 := pyFindChar s ']' 0
      if p1 = -1 ∨ p2 = -1 ∨ p1 + 1 ≥ p2 then some []
      else
        (parseTok repo (pySlice s (p1+1) p2)).bind fun n =>
          (parseLoop repo fuel (pyDropFrom s (p2+1))).map (fun l => n :: l)

def parse_indices (repo : Repository) (s : List Char) : Option (List Int) :=
  parseLoop repo (s.length + 1) s

/-! ### `Repository.process_spsa_match` (fishutils.py lines 179-245)

`processSpsaCore` returns `some (j, fstr)` exactly when every step of the
Python function succeeds, where `j` is the file written and `fstr` the full
new content.  Every early `return` of the Python code, and every exception
it can raise (the two `assert` statements, an unresolvable enum index, a
`ValueError` from `int()` — all caught by the driver's per-request
`try/except`), yields `none`: in both cases no file is written. -/

/-- An already-parsed SPSA result line (groups of the driver regex
`param: <name><indices>, best: <value_new>, start: <value_old>`). -/
structure Request where
  name : List Char
  indices : List Char
  valueNew : Int
  valueOld : Int
deriving DecidableEq

/-- The group read back by `match_value.group(prefix)`. -/
def prefixGroup (c : Char) : Nat := if c = 'm' then gM else if c = 'e' then gE else gV

/-- The final splice
`string[:start+i+mv.start(g)] + new_val.rjust(len(mv.group(g))) + string[start+i+mv.end(g):]`. -/
def spliceAt (s : List Char) (a b : Int) (w : Nat) (v : List Char) : List Char :=
  pyTakeTo s a ++ pyRjust v w ++ pyDropFrom s b

/-- Last steps of `process_spsa_match` shared by the direct and the enum
fallback paths: read the value group, parse it as an int (for the
old-value comparison, whose mismatch only warns), and splice. -/
def finishSplice (mdef : RMatch) (j : Nat) (i : Int) (mval : RMatch) (g : Nat)
    (newVal : List Char) : Option (Nat × List Char) :=
  match mval.groupSpan g with
  | none => none
  | some (gs, ge) =>
    let gstr := (mval.str.take ge).drop gs
    match pyInt? gstr with
    | none => none
    | some _ =>
      some (j, spliceAt mdef.str ((mdef.start : Int) + i + (gs : Int))
        ((mdef.start : Int) + i + (ge : Int)) gstr.length newVal)

def processSpsaCore (req : Request) (fRound : Int → Int) (repo : Repository) :
    Option (Nat × List Char) :=
  let np : List Char × Char :=
    match req.name with
    | c :: rest => if c = 'm' || c = 'e' then (rest, c) else (req.name, 'v')
    | [] => (req.name, 'v')
  let name := np.1
  let pfx := np.2
  match parse_indices repo req.indices with
  | none => none
  | some indices =>
    match repo.search_def name false with
    | none => none
    | some (mdef, j) =>
      let s2 := mdef.group0
      let i := find_index s2 indices
      let newVal := intStr (fRound req.valueNew)
      match mdef.groupStr gType with
      | none => none
      | some ty =>
        if (ty = "Score".data) ≠ (pfx = 'm' ∨ pfx = 'e') then none
        else
          let patOpt : Option RE :=
            if pfx = 'm' ∨ pfx = 'e' then some patValScore
            else if ty = "Value".data then some patValValue
            else if pySubstr ty "int".data then some patValInt
            else none
          match patOpt with
          | none => none
          | some pat =>
            match reSearch (pyDropFrom s2 i) pat with
            | none => none
            | some mval =>
              match mval.groupSpan (prefixGroup pfx) with
              | some _ => finishSplice mdef j i mval (prefixGroup pfx) newVal
              | none =>
                match mval.groupStr gEnumG with
                | none => none
                | some enumName =>
                  match repo.search_def enumName true with
                  | none => none
                  | some (mdefE, jE) =>
                    match reSearch mdefE.group0 (patEnumVal enumName) with
                    | none => none
                    | some mvE => finishSplice mdefE jE 0 mvE gV newVal

/-- Function `process_spsa_match` together with the `f.write(fstr)` it ends with. -/
def processSpsaMatch (req : Request) (fRound : Int → Int) (repo : Repository) : Repository :=
  match processSpsaCore req fRound repo with
  | none => repo
  | some (j, fstr) => repo.writeAt j fstr

/-! ### `Repository.process_function_match` (fishutils.py lines 247-272)

The user formula is modelled by the composite transformation
`t : Nat → Int`, standing for `int(f_round(func(float(run))))` applied to
a matched digit run; the claims quantify over it, so the dynamic `eval`
of the formula text needs no model of its own.  `re.sub(r'\d+', repl, s)`
replaces each leftmost maximal run of digits. -/

def sdrAux (t : Nat → Int) : Nat → List Char → List Char
  | 0, l => l
  | _+1, [] => []
  | fuel+1, c :: cs =>
    if c.isDigit then
      (toString (t (digitsToNat (c :: cs.takeWhile Char.isDigit)))).data ++
        sdrAux t fuel (cs.dropWhile Char.isDigit)
    else c :: sdrAux t fuel cs

/-- Substitution `re.compile(r'\d+').sub(lambda x: str(int(f_round(func(float(x.group()))))), s)`. -/
def subDigitRuns (t : Nat → Int) (l : List Char) : List Char := sdrAux t (l.length + 1) l

def processFunctionMatch (varname : List Char) (t : Nat → Int) (repo : Repository) :
    Repository :=
  match repo.search_def varname false with
  | none => repo
  | some (mdef, j) =>
    match mdef.groupSpan gDef with
    | none => repo
    | some (a, b) =>
      let defString := (mdef.str.take b).drop a
      let newDef := subDigitRuns t defString
      repo.writeAt j (mdef.str.take a ++ newDef ++ mdef.str.drop b)

/-! ### `Repository.align` (fishutils.py lines 291-312) -/

/-- Substitution `re.sub('[^{}\(\),]*', '', line)`: delete everything that is not a
structural delimiter. -/
def fingerprint (l : List Char) : List Char :=
  l.filter fun c => c = '\x7b' || c = '\x7d' || c = '(' || c = ')' || c = ','

/-- Insertion `line[:pos_old+1] + n * ' ' + line[pos_old+1:]`. -/
def insertSpaces (l : List Char) (at_ : Int) (n : Int) : List Char :=
  pyTakeTo l at_ ++ List.replicate n.toNat ' ' ++ pyDropFrom l at_

/-- The `for j in format_patterns[i][:len(commonprefix(...))]` loop. -/
def alignLoop : List Char → Int → List Char → List Char → List Char × List Char
  | [], _, l0, l1 => (l0, l1)
  | j :: js, posOld, l0, l1 =>
    let pos0 := pyFindChar l0 j (posOld + 1)
    let pos1 := pyFindChar l1 j (posOld + 1)
    let p : List Char × List Char :=
      if pos0 < pos1 then (insertSpaces l0 (posOld + 1) (pos1 - pos0), l1)
      else if pos1 < pos0 then (l0, insertSpaces l1 (posOld + 1) (pos0 - pos1))
      else (l0, l1)
    alignLoop js (max pos0 pos1) p.1 p.2

/-- The guard of the alignment pass: non-empty fingerprints equal up to a
trailing comma and, when the fingerprint starts with a brace, a common
prefix reaching that brace. -/
def alignGuard (l0 f0 l1 f1 : List Char) : Bool :=
  match f0 with
  | [] => false
  | c :: _ =>
    rstripComma f0 = rstripComma f1 &&
      (c != '\x7b' || ((commonPfx l0 l1).length : Int) ≥ pyFindChar l0 c 0)

/-- One pair step: mutates `lines[i]` and `lines[i+1]` in place, so the
updated second line is carried into the next pair. -/
def alignPairs : (List Char × List Char) → List (List Char × List Char) → List (List Char)
  | (l, _), [] => [l]
  | (l0, f0), (l1, f1) :: rest =>
    let p : List Char × List Char :=
      if alignGuard l0 f0 l1 f1 then alignLoop (commonPfx f0 f1) (-1) l0 l1 else (l0, l1)
    p.1 :: alignPairs (p.2, f1) rest

/-- Method `Repository.align`: one full alignment pass over the lines of `s`
(the caller `align_array` iterates it until a fixed point). -/
def align (s : List Char) : List Char :=
  let lines := pySplitlines s
  let fps := lines.map fingerprint
  match lines.zip fps with
  | [] => joinNL []
  | p :: ps => joinNL (alignPairs p ps)

/-! ### Spec-side definitions (used only to state the claims)

`SpecAssignAt` and `FirstSubAt` transcribe the specification's wording for
enum resolution ("an explicit `name = <int>` assignment inside the enum
body", "the first occurrence of the token"); they are compared with the
program's `get_index`.  The `Seg` decompositions transcribe the
specification's "every integer literal found inside the definition body"
(a maximal digit run, since a sign is not part of a C integer literal). -/

/-- The explicit assignment `entry \s* = \s* (-)? <digits>` stands at
index `i` of `s` with value `v` (the digit run maximal and non-empty). -/
def SpecAssignAt (s entry : List Char) (i : Nat) (v : Int) : Prop :=
  ∃ (w1 w2 ds rest : List Char) (neg : Bool),
    s.drop i = entry ++ w1 ++ '=' :: (w2 ++ (cond neg ['-'] []) ++ ds ++ rest) ∧
    (∀ c ∈ w1, isPySpace c = true) ∧ (∀ c ∈ w2, isPySpace c = true) ∧
    ds ≠ [] ∧ (∀ c ∈ ds, c.isDigit = true) ∧
    (∀ c ∈ rest.take 1, c.isDigit = false) ∧
    v = cond neg (-(digitsToNat ds : Int)) ((digitsToNat ds : Int))

/-- Substring `t` occurs in `s` at index `j` and at no earlier index. -/
def FirstSubAt (s t : List Char) (j : Nat) : Prop :=
  subAt s t j = true ∧ ∀ j' < j, subAt s t j' = false

/-- A segment of a definition body: plain text or an integer literal
(a digit run). -/
inductive Seg where
  | txt : List Char → Seg
  | num : List Char → Seg
deriving DecidableEq

def renderSeg : Seg → List Char
  | .txt l => l
  | .num l => l

/-- The text a segment list stands for. -/
def renderSegs (segs : List Seg) : List Char := (segs.map renderSeg).flatten

/-- What the Function Transformer turns a segment into:
literals become `str(int(f_round(func(float(lit)))))`, text is kept. -/
def applySeg (t : Nat → Int) : Seg → List Char
  | .txt l => l
  | .num l => (toString (t (digitsToNat l))).data

/-- Well-formed decomposition: text segments are non-empty and digit-free,
literal segments are non-empty digit runs, and no two literal segments are
adjacent (all runs are maximal). -/
def segsWF : List Seg → Bool
  | [] => true
  | Seg.txt l :: rest =>
    (!l.isEmpty) && l.all (fun c => !c.isDigit) && segsWF rest
  | Seg.num l :: rest =>
    (!l.isEmpty) && l.all Char.isDigit &&
      (match rest with
       | Seg.num _ :: _ => false
       | _ => true) && segsWF rest

/-! ### Concrete scenario inputs -/

/-- Text `int arr[3] = {10, f(1,2), 30};` (claim C1's example). -/
def exArr : List Char := "int arr[3] = \x7b10, f(1,2), 30\x7d;".data

/-- Text `a = {f(1,2) + g(3,4), 30};`: a well-formed initializer whose second
element is a sum of two call expressions. -/
def exParen : List Char := "a = \x7bf(1,2) + g(3,4), 30\x7d;".data

def fileMargin : List Char := "int margin[2] = \x7b100, 200\x7d;\n".data
def repoMargin : Repository := ⟨[SourceFile.load "eval.cpp" fileMargin]⟩
def reqMargin : Request := ⟨"margin".data, "[1]".data, 250, 200⟩

def fileFactor : List Char := "int factor[2] = \x7b100, 200\x7d;\n".data
def repoFactor : Repository := ⟨[SourceFile.load "eval.cpp" fileFactor]⟩
def reqFactor : Request := ⟨"factor".data, "[1]".data, 250, 200⟩

def fileArrSym : List Char := "int arr[1] = \x7bSYM\x7d;\n".data
def fileEnumSym : List Char := "enum \x7b SYM = 7 \x7d;\n".data
def repoSym : Repository :=
  ⟨[SourceFile.load "a.cpp" fileArrSym, SourceFile.load "b.h" fileEnumSym]⟩
def reqSym : Request := ⟨"arr".data, "".data, 9, 7⟩

def fileEnumABC : List Char := "enum E \x7b A, B, C \x7d;\n".data
def repoEnumABC : Repository := ⟨[SourceFile.load "types.h" fileEnumABC]⟩

/-- An enum block with an explicit assignment. -/
def enumX : List Char := "enum F \x7b X = 4, Y \x7d;".data

/-- Block `enum E { A, B, C };` as a matched block. -/
def enumABC : List Char := "enum E \x7b A, B, C \x7d;".data

/-- A multi-line array definition whose middle lines have equal
fingerprints of increasing width. -/
def alignEx : List Char := "v = \x7b\n\x7b1\x7d,\n\x7b22\x7d,\n\x7b333\x7d\n\x7d;".data

def fileRazor : List Char := "int razor[2] = \x7b100, 200\x7d;\n".data
def repoRazor : Repository := ⟨[SourceFile.load "search.cpp" fileRazor]⟩

/-- The match `search_def` produces for `razor` on `repoRazor`. -/
def mRazor : RMatch := ⟨fileRazor, 0, 26, [(gDef, 14, 25), (gType, 0, 3)]⟩

/-- Decomposition of `mRazor`'s definition body `" {100, 200}"`. -/
def segsRazor : List Seg :=
  [Seg.txt " \x7b".data, Seg.num "100".data, Seg.txt ", ".data,
    Seg.num "200".data, Seg.txt "\x7d".data]

def reqNone : Request := ⟨"absent".data, "".data, 1, 1⟩
def repoEmpty : Repository := ⟨[]⟩


/-! ## Supporting lemmas -/

theorem pyBound_natCast (n m : Nat) : pyBound n (m : Int) = min m n := by
  unfold pyBound
  split_ifs with h
  · omega
  · omega

theorem getq_set_self {α : Type} : ∀ (l : List α) (i : Nat) (a : α),
    (l.set i a)[i]? = (l[i]?).map fun _ => a := by
  intro l
  induction l with
  | nil => intro i a; simp
  | cons x xs ih =>
    intro i a
    cases i with
    | zero => simp
    | succ n => simpa using ih n a

theorem getq_set_ne {α : Type} : ∀ (l : List α) (i j : Nat) (a : α), i ≠ j →
    (l.set i a)[j]? = l[j]? := by
  intro l
  induction l with
  | nil => intro i j a _; simp
  | cons x xs ih =>
    intro i j a hij
    cases i with
    | zero =>
      cases j with
      | zero => exact absurd rfl hij
      | succ m => simp
    | succ n =>
      cases j with
      | zero => simp
      | succ m => simpa using ih n m a (fun h => hij (by omega))

/-! ## C9: the original snapshot is immutable -/

/-- C9.  For every in-memory Source Unit, `orig` is the content supplied at
construction and no operation of the embedding changes it: `write` replaces
only `curr` (and keeps the path), `read`/`read_orig`/`diffPair` return data
derived from the snapshots, and `save` returns the unchanged file with the
text flushed to disk. -/
theorem source_file_original_immutable (p : String) (c s : List Char) (f : SourceFile) :
    (SourceFile.load p c).orig = c ∧ (SourceFile.load p c).curr = c ∧
    (f.write s).orig = f.orig ∧ (f.write s).curr = s ∧ (f.write s).path = f.path ∧
    f.read = f.curr ∧ f.read_orig = f.orig ∧
    f.save = (f, f.curr) ∧ f.diffPair = (f.orig, f.curr) :=
  ⟨rfl, rfl, rfl, rfl, rfl, rfl, rfl, rfl, rfl⟩

/-! ## C1: the structural locator and call-expression commas -/

/-- C1 counterexample.  The claim "a comma lying inside an unbalanced
`(...)` span is never accepted as an element separator" fails: on the
initializer `a = {f(1,2) + g(3,4), 30};` with index path `[1]`,
`find_index` returns offset 17, which is the comma inside `g(3,4)` (one
more `(` than `)` precedes it).  After the scan skips past the imbalance
caused by `f(1,2)`, the final `s.find(",", pos_new)` accepts the next
comma without re-checking parenthesis balance. -/
theorem find_index_accepts_comma_inside_parens :
    find_index exParen [1] = 17 ∧ exParen.get? 17 = some ',' ∧
    (exParen.take 17).count ')' < (exParen.take 17).count '(' := by decide

/-- C1 (amended).  For `int arr[3] = {10, f(1,2), 30};` and index path
`[1]`, `find_index` returns 16, the offset of the top-level comma after
`10` (a comma with balanced parentheses before it, preceding the `f` of
the selected element) — the comma inside `f(1,2)`'s argument list is
skipped because the first candidate comma found after a separator is
rejected while the `(...)` span between the scan position and it is
unbalanced.  After skipping past such a span, however, the next comma is
accepted without a re-check, so a comma inside a later `(...)` span can
be accepted (see the counterexample). -/
theorem find_index_skips_first_call_comma :
    find_index exArr [1] = 16 ∧ exArr.get? 16 = some ',' ∧
    (exArr.take 16).count '(' = (exArr.take 16).count ')' ∧
    exArr.get? 18 = some 'f' := by decide

/-! ## C2: the `margin` scenario -/

/-- C2 counterexample.  The claimed rewrite does not happen: the request
name `margin` starts with `m`, which `process_spsa_match` interprets as
the midgame-score prefix, so it looks up a definition of `argin`, finds
none, and returns without touching the repository — the file still holds
`{100, 200}`, not the claimed `{100, 250}`. -/
theorem spsa_margin_request_is_noop :
    processSpsaMatch reqMargin (fun z => z) repoMargin = repoMargin ∧
    repoMargin.files.map SourceFile.curr = ["int margin[2] = \x7b100, 200\x7d;\n".data] := by
  decide

/-- C2 (amended).  The scenario holds for a name that does not begin with
the midgame/endgame prefix letters `m`/`e`: processing the value-edit
request with name `factor`, index path `[1]`, expected old value 200, new
value 250 and integral rounding, against a repository containing
`int factor[2] = {100, 200};`, rewrites that definition to
`int factor[2] = {100, 250};` and changes nothing else.  With the
original name `margin`, the leading `m` is consumed as a prefix and the
request is a no-op. -/
theorem spsa_factor_scenario :
    processSpsaMatch reqFactor (fun z => z) repoFactor =
      ⟨[⟨"eval.cpp", fileFactor, "int factor[2] = \x7b100, 250\x7d;\n".data⟩]⟩ := by decide

/-! ## C4: single-pass alignment is not idempotent -/

/-- C4 counterexample.  One alignment pass is not idempotent: aligning
pair (2,3) of `v = {\n{1},\n{22},\n{333}\n};` widens line 2 after pair
(1,2) was already aligned, so a second pass moves line 1 again. -/
theorem align_not_idempotent : align (align alignEx) ≠ align alignEx := by decide

/-- C4 (amended).  A single alignment pass is not idempotent; the caller
`align_array` instead applies `align` repeatedly until a fixed point,
which this input reaches after two passes. -/
theorem align_iterated_fixed_point :
    align (align (align alignEx)) = align (align alignEx) := by decide

/-! ## C6: fallback to patching the defining enum -/

/-- C6.  When the located array slot holds the symbol `SYM` (no literal
captured by the value pattern) and `SYM` is defined in an enum block as
`SYM = 7`, processing an edit request with new value 9 rewrites the enum
text to `SYM = 9` while the array definition's file is left unchanged. -/
theorem spsa_enum_fallback_scenario :
    processSpsaMatch reqSym (fun z => z) repoSym =
      ⟨[⟨"a.cpp", fileArrSym, fileArrSym⟩,
        ⟨"b.h", fileEnumSym, "enum \x7b SYM = 9 \x7d;\n".data⟩]⟩ := by decide

/-! ## C5: width preservation of the value splice -/

/-- C5.  The splice performed by `process_spsa_match` — replacing the
matched group span `[a, b)` of the file text by the new value
right-justified to the group's width — preserves the total length of the
text whenever the new value's decimal representation is no wider than the
matched literal. -/
theorem splice_preserves_length (s v : List Char) (a b : Nat)
    (h1 : a ≤ b) (h2 : b ≤ s.length) (h3 : v.length ≤ b - a) :
    (spliceAt s (a : Int) (b : Int) (b - a) v).length = s.length := by
  unfold spliceAt pyTakeTo pyDropFrom pyRjust
  rw [pyBound_natCast, pyBound_natCast]
  simp only [List.length_append, List.length_take, List.length_drop,
    List.length_replicate]
  omega

/-- Witness for C5 at a concrete input. -/
theorem splice_preserves_length_witness :
    (spliceAt "abcdef".data ((2 : Nat) : Int) ((5 : Nat) : Int) (5 - 2) "9".data).length =
      "abcdef".data.length :=
  splice_preserves_length "abcdef".data "9".data 2 5 (by decide) (by decide) (by decide)

/-! ## C8: no partial mutation -/

/-- C8.  `processSpsaCore` returns `none` exactly when some step of
`process_spsa_match` fails (definition not found, type/prefix assertion,
unknown declared type, value pattern unmatched, unresolvable enum
fallback, unparsable matched value, or an index-resolution exception);
in that case the repository is returned unchanged.  When every step
succeeds the core returns the written file `j` and its full new text, and
only that file's current content changes; original snapshots are never
touched in either case. -/
theorem writeAt_getq_self (repo : Repository) (j : Nat) (s : List Char) :
    (repo.writeAt j s).files[j]? = (repo.files[j]?).map fun f => f.write s := by
  unfold Repository.writeAt
  cases hf : repo.files.get? j with
  | none =>
    rw [List.get?_eq_getElem?] at hf
    show repo.files[j]? = _
    rw [hf]
    rfl
  | some f =>
    rw [List.get?_eq_getElem?] at hf
    show (repo.files.set j (f.write s))[j]? = _
    rw [getq_set_self, hf]
    rfl

theorem writeAt_getq_ne (repo : Repository) (j k : Nat) (s : List Char) (hk : k ≠ j) :
    (repo.writeAt j s).files[k]? = repo.files[k]? := by
  unfold Repository.writeAt
  cases hf : repo.files.get? j with
  | none => rfl
  | some f =>
    show (repo.files.set j (f.write s))[k]? = _
    exact getq_set_ne repo.files j k (f.write s) (fun h2 => hk h2.symm)

theorem writeAt_orig (repo : Repository) (j k : Nat) (s : List Char) :
    ((repo.writeAt j s).files[k]?).map SourceFile.orig =
      (repo.files[k]?).map SourceFile.orig := by
  by_cases hk : k = j
  · subst hk
    rw [writeAt_getq_self]
    cases repo.files[k]? with
    | none => rfl
    | some f => rfl
  · rw [writeAt_getq_ne repo j k s hk]

/-- C8.  `processSpsaCore` returns `none` exactly when some step of
`process_spsa_match` fails (definition not found, type/prefix assertion,
unknown declared type, value pattern unmatched, unresolvable enum
fallback, unparsable matched value, or an index-resolution exception);
in that case the repository is returned unchanged.  When every step
succeeds the core returns the written file `j` and its full new text, and
only that file's current content changes; original snapshots are never
touched in either case. -/
theorem process_spsa_mutation_discipline (req : Request) (fRound : Int -> Int)
    (repo : Repository) :
    (processSpsaCore req fRound repo = none -> processSpsaMatch req fRound repo = repo) /\
    (forall (j : Nat) (fstr : List Char), processSpsaCore req fRound repo = some (j, fstr) ->
      ((processSpsaMatch req fRound repo).files[j]? =
        (repo.files[j]?).map fun f => f.write fstr) /\
      forall k : Nat, k ≠ j -> (processSpsaMatch req fRound repo).files[k]? = repo.files[k]?) /\
    (forall k : Nat, ((processSpsaMatch req fRound repo).files[k]?).map SourceFile.orig =
      (repo.files[k]?).map SourceFile.orig) := by
  refine ⟨?_, ?_, ?_⟩
  · intro h
    simp [processSpsaMatch, h]
  · intro j fstr h
    simp only [processSpsaMatch, h]
    exact ⟨writeAt_getq_self repo j fstr, fun k hk => writeAt_getq_ne repo j k fstr hk⟩
  · intro k
    unfold processSpsaMatch
    cases h : processSpsaCore req fRound repo with
    | none => rfl
    | some p =>
      obtain ⟨j, fstr⟩ := p
      exact writeAt_orig repo j k fstr

/-- Witness for C8: a failing request leaves the (empty) repository
unchanged, and the successful `factor` edit writes exactly the expected
text into file 0. -/
theorem process_spsa_mutation_discipline_witness :
    processSpsaMatch reqNone (fun z => z) repoEmpty = repoEmpty ∧
    (processSpsaMatch reqFactor (fun z => z) repoFactor).files[0]? =
      (repoFactor.files[0]?).map
        (fun f => f.write "int factor[2] = \x7b100, 250\x7d;\n".data) := by
  constructor
  · exact (process_spsa_mutation_discipline reqNone (fun z => z) repoEmpty).1 (by decide)
  · exact ((process_spsa_mutation_discipline reqFactor (fun z => z) repoFactor).2.1 0
      "int factor[2] = \x7b100, 250\x7d;\n".data (by decide)).1


/-! ## C10: `parse_indices` stops silently at a malformed bracket group -/

theorem pyBound_le (n : Nat) (i : Int) : pyBound n i ≤ n := by
  unfold pyBound
  split_ifs with h
  · omega
  · omega

theorem pyBound_zero (n : Nat) : pyBound n 0 = 0 := by
  simp [pyBound]

theorem findCharFrom_bounds : ∀ (l : List Char) (c : Char) (i k : Nat),
    findCharFrom l c i = some k → i ≤ k ∧ k < i + l.length := by
  intro l
  induction l with
  | nil => intro c i k h; simp [findCharFrom] at h
  | cons x xs ih =>
    intro c i k h
    unfold findCharFrom at h
    by_cases hx : x = c
    · rw [if_pos hx] at h
      injection h with h
      subst h
      simp
    · rw [if_neg hx] at h
      have := ih c (i+1) k h
      constructor
      · omega
      · simp only [List.length_cons]
        omega

theorem pyFindChar_cases (s : List Char) (c : Char) (st : Int) :
    pyFindChar s c st = -1 ∨
      (0 ≤ pyFindChar s c st ∧ pyFindChar s c st < (s.length : Int)) := by
  unfold pyFindChar
  cases hf : findCharFrom (s.drop (pyBound s.length st)) c 0 with
  | none => left; rfl
  | some k =>
    right
    have hb := findCharFrom_bounds _ c 0 k hf
    simp only [List.length_drop] at hb
    have hle := pyBound_le s.length st
    constructor
    · exact Int.ofNat_nonneg _
    · simp only [Int.ofNat_eq_coe]
      omega

theorem findCharFrom_append (c : Char) : ∀ (l r : List Char) (i : Nat),
    (∀ x ∈ l, x ≠ c) → findCharFrom (l ++ c :: r) c i = some (i + l.length) := by
  intro l
  induction l with
  | nil => intro r i _; simp [findCharFrom]
  | cons x xs ih =>
    intro r i h
    have hx : x ≠ c := h x (by simp)
    simp only [List.cons_append]
    unfold findCharFrom
    rw [if_neg hx, ih r (i+1) (fun y hy => h y (by simp [hy]))]
    simp only [List.length_cons]
    congr 1
    omega

theorem isDigit_ne_of_not (c d : Char) (hd : d.isDigit = false) (h : c.isDigit = true) :
    c ≠ d := by
  intro he
  subst he
  rw [h] at hd
  cases hd

theorem space_of_digit_false (c : Char) (h : c.isDigit = true) : isPySpace c = false := by
  have n1 : c ≠ ' ' := isDigit_ne_of_not c ' ' (by decide) h
  have n2 : c ≠ '\t' := isDigit_ne_of_not c '\t' (by decide) h
  have n3 : c ≠ '\n' := isDigit_ne_of_not c '\n' (by decide) h
  have n4 : c ≠ '\r' := isDigit_ne_of_not c '\r' (by decide) h
  have n5 : c ≠ '\x0b' := isDigit_ne_of_not c '\x0b' (by decide) h
  have n6 : c ≠ '\x0c' := isDigit_ne_of_not c '\x0c' (by decide) h
  simp [isPySpace, n1, n2, n3, n4, n5, n6]

theorem dropWhile_space_of_digits (l : List Char) (h2 : ∀ c ∈ l, c.isDigit = true) :
    l.dropWhile isPySpace = l := by
  cases l with
  | nil => rfl
  | cons x xs =>
    have := space_of_digit_false x (h2 x (by simp))
    simp [List.dropWhile_cons, this]

theorem pyInt?_digits (ds : List Char) (h1 : ds ≠ []) (h2 : ∀ c ∈ ds, c.isDigit = true) :
    pyInt? ds = some ((digitsToNat ds : Int)) := by
  have hstrip : ((ds.dropWhile isPySpace).reverse.dropWhile isPySpace).reverse = ds := by
    rw [dropWhile_space_of_digits ds h2,
      dropWhile_space_of_digits ds.reverse (fun c hc => h2 c (List.mem_reverse.mp hc)),
      List.reverse_reverse]
  cases ds with
  | nil => exact absurd rfl h1
  | cons d t =>
    have hd := h2 d (by simp)
    unfold pyInt?
    rw [hstrip]
    dsimp only
    rw [if_neg (isDigit_ne_of_not d '-' (by decide) hd),
      if_neg (isDigit_ne_of_not d '+' (by decide) hd),
      if_pos (by rw [List.all_eq_true]; intro c hc; exact h2 c hc)]

/-- One-step unfolding of the fuelled loop. -/
theorem parseLoop_succ (repo : Repository) (fuel : Nat) (s : List Char) :
    parseLoop repo (fuel + 1) s =
      (if s = [] then some []
       else
        if pyFindChar s '[' 0 = -1 ∨ pyFindChar s ']' 0 = -1 ∨
            pyFindChar s '[' 0 + 1 ≥ pyFindChar s ']' 0 then some []
        else
          (parseTok repo (pySlice s (pyFindChar s '[' 0 + 1) (pyFindChar s ']' 0))).bind fun n =>
            (parseLoop repo fuel (pyDropFrom s (pyFindChar s ']' 0 + 1))).map
              (fun l => n :: l)) := rfl

theorem parseLoop_adequate (repo : Repository) : ∀ (n f : Nat) (s : List Char),
    s.length = n → n < f → parseLoop repo f s = parse_indices repo s := by
  intro n
  induction n using Nat.strong_induction_on with
  | _ n ih =>
    intro f s hn hf
    obtain ⟨f', rfl⟩ : ∃ f', f = f' + 1 := ⟨f - 1, by omega⟩
    rw [parse_indices]
    by_cases hs : s = []
    · subst hs
      simp [parseLoop]
    · simp only [parseLoop, if_neg hs]
      by_cases hm : pyFindChar s '[' 0 = -1 ∨ pyFindChar s ']' 0 = -1 ∨
          pyFindChar s '[' 0 + 1 ≥ pyFindChar s ']' 0
      · rw [if_pos hm, if_pos hm]
      · rw [if_neg hm, if_neg hm]
        cases ht : parseTok repo (pySlice s (pyFindChar s '[' 0 + 1) (pyFindChar s ']' 0)) with
        | none => rfl
        | some v =>
          simp only [Option.some_bind]
          have hrest : (pyDropFrom s (pyFindChar s ']' 0 + 1)).length < s.length := by
            push_neg at hm
            rcases pyFindChar_cases s ']' 0 with h2 | ⟨h2a, h2b⟩
            · exact absurd h2 hm.2.1
            · unfold pyDropFrom
              simp only [List.length_drop]
              have hb1 : 1 ≤ pyBound s.length (pyFindChar s ']' 0 + 1) := by
                unfold pyBound
                split_ifs with hh
                · omega
                · have hpos : s.length ≠ 0 := fun h0 => hs (List.length_eq_zero.mp h0)
                  omega
              have hb2 := pyBound_le s.length (pyFindChar s ']' 0 + 1)
              omega
          have e1 := ih (pyDropFrom s (pyFindChar s ']' 0 + 1)).length (by omega) f'
            (pyDropFrom s (pyFindChar s ']' 0 + 1)) rfl (by omega)
          have e2 := ih (pyDropFrom s (pyFindChar s ']' 0 + 1)).length (by omega) s.length
            (pyDropFrom s (pyFindChar s ']' 0 + 1)) rfl (by omega)
          rw [e1, e2]

/-- The loop's break condition yields the accumulated (empty) result. -/
theorem parse_indices_break (repo : Repository) (s : List Char)
    (h : pyFindChar s '[' 0 = -1 ∨ pyFindChar s ']' 0 = -1 ∨
      pyFindChar s '[' 0 + 1 ≥ pyFindChar s ']' 0) :
    parse_indices repo s = some [] := by
  rw [parse_indices]
  by_cases hs : s = []
  · subst hs; simp [parseLoop]
  · simp only [parseLoop, if_neg hs, if_pos h]

/-- A leading well-formed integer group contributes its value and the
loop continues on the rest of the text. -/
theorem parse_indices_step (repo : Repository) (ds s' : List Char)
    (h1 : ds ≠ []) (h2 : ∀ c ∈ ds, c.isDigit = true) :
    parse_indices repo ('[' :: ds ++ ']' :: s') =
      (parse_indices repo s').map fun l => ((digitsToNat ds : Int)) :: l := by
  have hlen : 1 ≤ ds.length := by
    cases ds with
    | nil => exact absurd rfl h1
    | cons d t => simp
  have hne : ∀ x ∈ '[' :: ds, x ≠ ']' := by
    intro x hx
    rcases List.mem_cons.mp hx with h | h
    · subst h; decide
    · exact isDigit_ne_of_not x ']' (by decide) (h2 x h)
  have hp1 : pyFindChar ('[' :: ds ++ ']' :: s') '[' 0 = 0 := by
    unfold pyFindChar
    rw [pyBound_zero, List.drop_zero]
    simp [findCharFrom]
  have hp2 : pyFindChar ('[' :: ds ++ ']' :: s') ']' 0 = ((ds.length + 1 : Nat) : Int) := by
    unfold pyFindChar
    rw [pyBound_zero, List.drop_zero]
    rw [findCharFrom_append ']' ('[' :: ds) s' 0 hne]
    simp
  have hlen2 : ('[' :: ds ++ ']' :: s').length = ds.length + s'.length + 2 := by
    simp
    omega
  rw [parse_indices, hlen2, parseLoop_succ]
  rw [if_neg (by simp)]
  rw [hp1, hp2]
  rw [if_neg (by
    push_neg
    refine ⟨by decide, by omega, by omega⟩)]
  have htok : pySlice ('[' :: ds ++ ']' :: s') (0 + 1) ((ds.length + 1 : Nat) : Int) = ds := by
    unfold pySlice
    rw [show ((0 : Int) + 1) = ((1 : Nat) : Int) from rfl]
    rw [pyBound_natCast, pyBound_natCast, hlen2]
    rw [min_eq_left (by omega), min_eq_left (by omega)]
    rw [show ds.length + 1 = ('[' :: ds).length from by simp]
    rw [List.take_left]
    simp
  rw [htok]
  rw [show parseTok repo ds = some ((digitsToNat ds : Int)) from by
    unfold parseTok
    rw [pyInt?_digits ds h1 h2]]
  simp only [Option.some_bind]
  have hrest : pyDropFrom ('[' :: ds ++ ']' :: s') (((ds.length + 1 : Nat) : Int) + 1) = s' := by
    unfold pyDropFrom
    rw [show (((ds.length + 1 : Nat) : Int) + 1) = ((ds.length + 2 : Nat) : Int) from by
      push_cast
      ring]
    rw [pyBound_natCast, hlen2]
    rw [min_eq_left (by omega)]
    rw [show ('[' :: ds ++ ']' :: s') = ('[' :: ds ++ [']']) ++ s' from by simp]
    rw [show ds.length + 2 = ('[' :: ds ++ [']']).length from by simp]
    rw [List.drop_left]
  rw [hrest]
  rw [parseLoop_adequate repo s'.length (ds.length + s'.length + 2) s' rfl (by omega)]

/-- C10.  `parse_indices` stops silently at the first bracket group that is
not well formed (missing `[` or `]`, or an empty or inverted pair) and
returns the integers accumulated so far, ignoring the remaining text:
(1) whenever the loop's break condition holds for the remaining text the
result is the accumulated list (stated for the empty accumulator, to which
every loop iteration reduces); (2) a leading well-formed integer group
`[ds]` contributes its value and the loop continues on the rest; and
(3) in particular `parse_indices("[1][]") = [1]` for every repository. -/
theorem parse_indices_stops_at_malformed :
    (∀ (repo : Repository) (s : List Char),
        pyFindChar s '[' 0 = -1 ∨ pyFindChar s ']' 0 = -1 ∨
          pyFindChar s '[' 0 + 1 ≥ pyFindChar s ']' 0 →
        parse_indices repo s = some []) ∧
    (∀ (repo : Repository) (ds s' : List Char), ds ≠ [] → (∀ c ∈ ds, c.isDigit = true) →
        parse_indices repo ('[' :: ds ++ ']' :: s') =
          (parse_indices repo s').map fun l => ((digitsToNat ds : Int)) :: l) ∧
    (∀ repo : Repository, parse_indices repo "[1][]".data = some [1]) := by
  refine ⟨parse_indices_break, parse_indices_step, ?_⟩
  intro repo
  have e1 := parse_indices_step repo "1".data "[]".data (by decide) (by decide)
  have e2 := parse_indices_break repo "[]".data (by decide)
  rw [show "[1][]".data = '[' :: "1".data ++ ']' :: "[]".data from rfl, e1, e2]
  rfl

/-- Witness for C10: the malformed tail `[]x` makes the loop stop with the
empty result, and a leading `[7]` group prepends 7. -/
theorem parse_indices_stops_at_malformed_witness :
    parse_indices repoEmpty "[]x".data = some [] ∧
    (parse_indices repoEmpty ('[' :: "7".data ++ ']' :: "[]x".data) =
      ((parse_indices repoEmpty "[]x".data).map fun l => ((digitsToNat "7".data : Int)) :: l)) ∧
    parse_indices repoEmpty "[1][]".data = some [1] := by
  refine ⟨?_, ?_, ?_⟩
  · exact parse_indices_stops_at_malformed.1 repoEmpty "[]x".data (by decide)
  · exact parse_indices_stops_at_malformed.2.1 repoEmpty "7".data "[]x".data
      (by decide) (by decide)
  · exact parse_indices_stops_at_malformed.2.2 repoEmpty

/-! ## C3: enum resolution -/

theorem mem_takeWhile_true (p : Char → Bool) : ∀ (l : List Char) (c : Char),
    c ∈ l.takeWhile p → p c = true := by
  intro l
  induction l with
  | nil => intro c h; simp [List.takeWhile] at h
  | cons x xs ih =>
    intro c h
    rw [List.takeWhile_cons] at h
    by_cases hx : p x
    · rw [if_pos hx] at h
      rcases List.mem_cons.mp h with h1 | h1
      · subst h1; exact hx
      · exact ih c h1
    · rw [if_neg hx] at h
      simp at h

theorem dropWhile_head_false (p : Char → Bool) : ∀ (l : List Char) (c : Char),
    c ∈ (l.dropWhile p).take 1 → p c = false := by
  intro l
  induction l with
  | nil => intro c h; simp [List.dropWhile] at h
  | cons x xs ih =>
    intro c h
    rw [List.dropWhile_cons] at h
    by_cases hx : p x
    · rw [if_pos hx] at h
      exact ih c h
    · rw [if_neg hx] at h
      simp only [List.take_succ_cons, List.take_zero, List.mem_singleton] at h
      subst h
      exact Bool.eq_false_iff.mpr (fun hc => hx hc)

theorem dropWhile_append_eq (p : Char → Bool) : ∀ (a l : List Char),
    (∀ c ∈ a, p c = true) → (∀ c ∈ l.take 1, p c = false) →
    (a ++ l).dropWhile p = l := by
  intro a
  induction a with
  | nil =>
    intro l _ hl
    cases l with
    | nil => rfl
    | cons x xs =>
      have hx := hl x (by simp)
      simp [List.dropWhile_cons, hx]
  | cons y ys ih =>
    intro l ha hl
    have hy := ha y (by simp)
    simp only [List.cons_append, List.dropWhile_cons, hy, if_true]
    exact ih l (fun c hc => ha c (by simp [hc])) hl

theorem takeWhile_append_eq (p : Char → Bool) : ∀ (a l : List Char),
    (∀ c ∈ a, p c = true) → (∀ c ∈ l.take 1, p c = false) →
    (a ++ l).takeWhile p = a := by
  intro a
  induction a with
  | nil =>
    intro l _ hl
    cases l with
    | nil => rfl
    | cons x xs =>
      have hx := hl x (by simp)
      simp [List.takeWhile_cons, hx]
  | cons y ys ih =>
    intro l ha hl
    have hy := ha y (by simp)
    simp only [List.cons_append, List.takeWhile_cons, hy, if_true]
    rw [ih l (fun c hc => ha c (by simp [hc])) hl]

theorem stripPfx_append : ∀ (p r : List Char), stripPfx p (p ++ r) = some r := by
  intro p
  induction p with
  | nil => intro r; rfl
  | cons x xs ih =>
    intro r
    simp only [List.cons_append]
    unfold stripPfx
    rw [if_pos rfl]
    exact ih r

theorem stripPfx_some : ∀ (p l r : List Char), stripPfx p l = some r → l = p ++ r := by
  intro p
  induction p with
  | nil =>
    intro l r h
    unfold stripPfx at h
    simp only [List.nil_append]
    exact Option.some.inj h
  | cons x xs ih =>
    intro l r h
    cases l with
    | nil => cases h
    | cons c cs =>
      unfold stripPfx at h
      by_cases hc : c = x
      · rw [if_pos hc] at h
        subst hc
        simp only [List.cons_append]
        rw [ih cs r h]
      · rw [if_neg hc] at h
        cases h

theorem assignNum_some_iff (l : List Char) (v : Int) :
    assignNum l = some v ↔
      ∃ (neg : Bool) (ds rest : List Char),
        l = (cond neg ['-'] []) ++ ds ++ rest ∧ ds ≠ [] ∧
        (∀ c ∈ ds, c.isDigit = true) ∧ (∀ c ∈ rest.take 1, c.isDigit = false) ∧
        v = cond neg (-(digitsToNat ds : Int)) ((digitsToNat ds : Int)) := by
  constructor
  · intro h
    cases l with
    | nil => cases h
    | cons c2 r5 =>
      simp only [assignNum] at h
      by_cases hc2 : c2 = '-'
      · rw [if_pos hc2] at h
        subst hc2
        by_cases hds : r5.takeWhile Char.isDigit = []
        · rw [if_pos hds] at h; cases h
        · rw [if_neg hds] at h
          injection h with h
          refine ⟨true, r5.takeWhile Char.isDigit, r5.dropWhile Char.isDigit, ?_, hds,
            mem_takeWhile_true Char.isDigit r5, dropWhile_head_false Char.isDigit r5, ?_⟩
          · simp [List.takeWhile_append_dropWhile]
          · simp [← h]
      · rw [if_neg hc2] at h
        by_cases hds : (c2 :: r5).takeWhile Char.isDigit = []
        · rw [if_pos hds] at h; cases h
        · rw [if_neg hds] at h
          injection h with h
          refine ⟨false, (c2 :: r5).takeWhile Char.isDigit, (c2 :: r5).dropWhile Char.isDigit,
            ?_, hds, mem_takeWhile_true Char.isDigit (c2 :: r5),
            dropWhile_head_false Char.isDigit (c2 :: r5), ?_⟩
          · simp [List.takeWhile_append_dropWhile]
          · simp [← h]
  · rintro ⟨neg, ds, rest, hl, hds, hdig, hrest, hv⟩
    cases ds with
    | nil => exact absurd rfl hds
    | cons d dt =>
      have hd : d.isDigit = true := hdig d (by simp)
      have htw : ((d :: dt) ++ rest).takeWhile Char.isDigit = d :: dt :=
        takeWhile_append_eq Char.isDigit (d :: dt) rest hdig hrest
      cases neg with
      | true =>
        simp only [cond_true] at hl hv
        subst hl
        simp only [List.cons_append, List.nil_append]
        simp only [assignNum]
        rw [if_pos trivial]
        rw [show (d :: (dt ++ rest)).takeWhile Char.isDigit = d :: dt from by
          rw [← List.cons_append]
          exact htw]
        rw [if_neg (by simp)]
        rw [hv]
      | false =>
        simp only [cond_false] at hl hv
        subst hl
        simp only [List.nil_append, List.cons_append]
        simp only [assignNum]
        rw [if_neg (isDigit_ne_of_not d '-' (by decide) hd)]
        rw [show (d :: (dt ++ rest)).takeWhile Char.isDigit = d :: dt from by
          rw [← List.cons_append]
          exact htw]
        rw [if_neg (by simp)]
        rw [hv]

theorem assignEq_some_iff (l : List Char) (v : Int) :
    assignEq l = some v ↔
      ∃ r3, l = '=' :: r3 ∧ assignNum (r3.dropWhile isPySpace) = some v := by
  constructor
  · intro h
    cases l with
    | nil => cases h
    | cons c r3 =>
      simp only [assignEq] at h
      by_cases hc : c = '='
      · subst hc
        rw [if_pos rfl] at h
        exact ⟨r3, rfl, h⟩
      · rw [if_neg hc] at h
        cases h
  · rintro ⟨r3, hl, h⟩
    subst hl
    simp only [assignEq]
    rw [if_pos trivial]
    exact h

theorem assignAt_iff (s entry : List Char) (i : Nat) (v : Int) :
    assignAt s entry i = some v ↔ SpecAssignAt s entry i v := by
  constructor
  · intro h
    unfold assignAt at h
    cases hst : stripPfx entry (s.drop i) with
    | none => rw [hst] at h; cases h
    | some r1 =>
      rw [hst] at h
      obtain ⟨r3, hdw, hnum⟩ := (assignEq_some_iff (r1.dropWhile isPySpace) v).mp h
      obtain ⟨neg, ds, rest, hl, hds, hdig, hrest, hv⟩ :=
        (assignNum_some_iff (r3.dropWhile isPySpace) v).mp hnum
      refine ⟨r1.takeWhile isPySpace, r3.takeWhile isPySpace, ds, rest, neg, ?_,
        mem_takeWhile_true isPySpace r1, mem_takeWhile_true isPySpace r3, hds, hdig, hrest, hv⟩
      rw [stripPfx_some entry (s.drop i) r1 hst]
      conv_lhs => rw [← List.takeWhile_append_dropWhile isPySpace r1, hdw,
        ← List.takeWhile_append_dropWhile isPySpace r3, hl]
      simp [List.append_assoc]
  · rintro ⟨w1, w2, ds, rest, neg, hdrop, hw1, hw2, hds, hdig, hrest, hv⟩
    have hstrip : stripPfx entry (s.drop i) =
        some (w1 ++ '=' :: (w2 ++ (cond neg ['-'] []) ++ ds ++ rest)) := by
      rw [hdrop]
      rw [show entry ++ w1 ++ '=' :: (w2 ++ (cond neg ['-'] []) ++ ds ++ rest) =
          entry ++ (w1 ++ '=' :: (w2 ++ (cond neg ['-'] []) ++ ds ++ rest)) from
        List.append_assoc entry w1 _]
      exact stripPfx_append entry _
    simp only [assignAt, hstrip]
    rw [dropWhile_append_eq isPySpace w1 _ hw1 (by
      intro c hc
      simp only [List.take_succ_cons, List.take_zero, List.mem_singleton] at hc
      subst hc
      decide)]
    apply (assignEq_some_iff _ v).mpr
    refine ⟨w2 ++ (cond neg ['-'] []) ++ ds ++ rest, rfl, ?_⟩
    apply (assignNum_some_iff _ v).mpr
    refine ⟨neg, ds, rest, ?_, hds, hdig, hrest, hv⟩
    rw [show w2 ++ (cond neg ['-'] []) ++ ds ++ rest =
        w2 ++ ((cond neg ['-'] []) ++ ds ++ rest) from by
      simp only [List.append_assoc]]
    rw [dropWhile_append_eq isPySpace w2 _ hw2 (by
      intro c hc
      cases neg with
      | true =>
        simp only [cond_true, List.cons_append, List.take_succ_cons, List.take_zero,
          List.mem_singleton] at hc
        subst hc
        decide
      | false =>
        simp only [cond_false, List.nil_append] at hc
        cases ds with
        | nil => exact absurd rfl hds
        | cons d dt =>
          simp only [List.cons_append, List.take_succ_cons, List.take_zero,
            List.mem_singleton] at hc
          subst hc
          exact space_of_digit_false c (hdig c (by simp)))]

theorem assignAt_none_of_ge (s entry : List Char) (i : Nat) (h : s.length ≤ i) :
    assignAt s entry i = none := by
  unfold assignAt
  rw [List.drop_eq_nil_of_le h]
  cases entry with
  | nil => rfl
  | cons p ps => rfl

theorem searchAssignAux_found (s entry : List Char) (v : Int) : ∀ (fuel i j : Nat),
    i ≤ j → j < i + fuel → assignAt s entry j = some v →
    (∀ k, i ≤ k → k < j → assignAt s entry k = none) →
    searchAssignAux s entry i fuel = some v := by
  intro fuel
  induction fuel with
  | zero => intro i j h1 h2 _ _; omega
  | succ f ih =>
    intro i j h1 h2 h3 h4
    unfold searchAssignAux
    by_cases hij : i = j
    · subst hij
      rw [h3]
    · have hlt : i < j := by omega
      rw [h4 i (le_refl i) hlt]
      exact ih (i+1) j (by omega) (by omega) h3 (fun k hk1 hk2 => h4 k (by omega) hk2)

theorem searchAssignAux_none (s entry : List Char)
    (h : ∀ k, assignAt s entry k = none) : ∀ (fuel i : Nat),
    searchAssignAux s entry i fuel = none := by
  intro fuel
  induction fuel with
  | zero => intro i; rfl
  | succ f ih =>
    intro i
    unfold searchAssignAux
    rw [h i]
    exact ih (i+1)

theorem searchAssign_found (s entry : List Char) (j : Nat) (v : Int)
    (hj : assignAt s entry j = some v)
    (hmin : ∀ k < j, assignAt s entry k = none) : searchAssign s entry = some v := by
  have hjle : j ≤ s.length := by
    by_contra hc
    rw [assignAt_none_of_ge s entry j (by omega)] at hj
    cases hj
  exact searchAssignAux_found s entry v (s.length + 1) 0 j (by omega) (by omega) hj
    (fun k _ hk => hmin k hk)

theorem searchAssign_none_all (s entry : List Char)
    (h : ∀ k, assignAt s entry k = none) : searchAssign s entry = none :=
  searchAssignAux_none s entry h (s.length + 1) 0

theorem pyFindSubAux_found (s t : List Char) : ∀ (fuel i j : Nat),
    i ≤ j → j < i + fuel → subAt s t j = true →
    (∀ k, i ≤ k → k < j → subAt s t k = false) →
    pyFindSubAux s t i fuel = Int.ofNat j := by
  intro fuel
  induction fuel with
  | zero => intro i j h1 h2 _ _; omega
  | succ f ih =>
    intro i j h1 h2 h3 h4
    unfold pyFindSubAux
    by_cases hij : i = j
    · subst hij
      rw [h3]
      rfl
    · have hlt : i < j := by omega
      rw [h4 i (le_refl i) hlt]
      exact ih (i+1) j (by omega) (by omega) h3 (fun k hk1 hk2 => h4 k (by omega) hk2)

theorem firstSub_le_length (s t : List Char) (j : Nat) (h : FirstSubAt s t j) :
    j ≤ s.length := by
  by_contra hc
  have h1 := h.1
  unfold subAt at h1
  rw [List.drop_eq_nil_of_le (by omega), List.take_nil] at h1
  have ht : t = [] := (eq_of_beq h1).symm
  subst ht
  have h0 : subAt s [] 0 = true := by simp [subAt]
  have hm := h.2 0 (by omega)
  rw [h0] at hm
  cases hm

theorem pyFindSub_first (s t : List Char) (j : Nat) (h : FirstSubAt s t j) :
    pyFindSub s t = Int.ofNat j := by
  have hle := firstSub_le_length s t j h
  exact pyFindSubAux_found s t (s.length + 1) 0 j (by omega) (by omega) h.1
    (fun k _ hk => h.2 k hk)

/-- C3.  `get_index` resolves a non-integer index token from the matched
enum block exactly as specified: (1) when an explicit assignment
`token \s* = \s* <int>` stands somewhere in the block, the result is the
integer of the first (leftmost) such assignment; (2) when the block
contains no such assignment, the result is the number of commas occurring
before the first occurrence of the token; and (3) through the whole
`parse_indices` pipeline, the token `B` against a repository holding
`enum E { A, B, C };` resolves to `[1]`. -/
theorem get_index_enum_resolution :
    (∀ (enumText entry : List Char) (i : Nat) (v : Int),
        SpecAssignAt enumText entry i v →
        (∀ (i' : Nat) (v' : Int), i' < i → ¬ SpecAssignAt enumText entry i' v') →
        get_index enumText entry = v) ∧
    (∀ (enumText entry : List Char) (j : Nat),
        (∀ (i : Nat) (v : Int), ¬ SpecAssignAt enumText entry i v) →
        FirstSubAt enumText entry j →
        get_index enumText entry = (((enumText.take j).count ',' : Nat) : Int)) ∧
    parse_indices repoEnumABC "[B]".data = some [1] := by
  refine ⟨?_, ?_, ?_⟩
  · intro e entry i v hspec hmin
    unfold get_index
    rw [searchAssign_found e entry i v ((assignAt_iff e entry i v).mpr hspec)
      (fun k hk => by
        cases hak : assignAt e entry k with
        | none => rfl
        | some w => exact absurd ((assignAt_iff e entry k w).mp hak) (hmin k w hk))]
  · intro e entry j hno hfirst
    unfold get_index
    rw [searchAssign_none_all e entry (fun k => by
      cases hak : assignAt e entry k with
      | none => rfl
      | some w => exact absurd ((assignAt_iff e entry k w).mp hak) (hno k w))]
    rw [pyFindSub_first e entry j hfirst]
    unfold pyTakeTo
    rw [show pyBound e.length (Int.ofNat j) = j from by
      rw [show Int.ofNat j = ((j : Nat) : Int) from rfl, pyBound_natCast]
      exact min_eq_left (firstSub_le_length e entry j hfirst)]
    rfl
  · decide

/-- Witness for C3: the explicit assignment `X = 4` is taken over the
ordinal, and `B` in `enum E { A, B, C };` resolves by comma count to 1. -/
theorem get_index_enum_resolution_witness :
    get_index enumX "X".data = 4 ∧ get_index enumABC "B".data = 1 := by
  constructor
  · exact get_index_enum_resolution.1 enumX "X".data 9 4
      ((assignAt_iff enumX "X".data 9 4).mp (by decide))
      (fun i' v' hlt hsp => by
        have hb : ∀ k < 9, assignAt enumX "X".data k = none := by decide
        have := (assignAt_iff enumX "X".data i' v').mpr hsp
        rw [hb i' hlt] at this
        cases this)
  · have hnone : ∀ k, assignAt enumABC "B".data k = none := by
      intro k
      by_cases hk : k < 20
      · have hb : ∀ k' < 20, assignAt enumABC "B".data k' = none := by decide
        exact hb k hk
      · have hlen : enumABC.length = 19 := by decide
        exact assignAt_none_of_ge enumABC "B".data k (by omega)
    refine ((get_index_enum_resolution.2.1 enumABC "B".data 12
      (fun i v hsp => by
        have := (assignAt_iff enumABC "B".data i v).mpr hsp
        rw [hnone i] at this
        cases this)
      ⟨by decide, by decide⟩)).trans (by decide)

/-! ## C7: the Function Transformer rewrites every literal -/

theorem length_dropWhile_le (p : Char → Bool) : ∀ l : List Char,
    (l.dropWhile p).length ≤ l.length := by
  intro l
  induction l with
  | nil => simp
  | cons c cs ih =>
    rw [List.dropWhile_cons]
    by_cases hc : p c
    · rw [if_pos hc]
      simp only [List.length_cons]
      omega
    · rw [if_neg hc]

theorem sdrAux_mono (t : Nat → Int) : ∀ (n f1 f2 : Nat) (l : List Char),
    l.length = n → n < f1 → n < f2 → sdrAux t f1 l = sdrAux t f2 l := by
  intro n
  induction n using Nat.strong_induction_on with
  | _ n ih =>
    intro f1 f2 l hn h1 h2
    obtain ⟨g1, rfl⟩ : ∃ g, f1 = g + 1 := ⟨f1 - 1, by omega⟩
    obtain ⟨g2, rfl⟩ : ∃ g, f2 = g + 1 := ⟨f2 - 1, by omega⟩
    cases l with
    | nil => rfl
    | cons c cs =>
      simp only [List.length_cons] at hn
      simp only [sdrAux]
      by_cases hc : c.isDigit = true
      · rw [if_pos hc, if_pos hc]
        congr 1
        have hd := length_dropWhile_le Char.isDigit cs
        exact ih (cs.dropWhile Char.isDigit).length (by omega) g1 g2 _ rfl
          (by omega) (by omega)
      · rw [if_neg hc, if_neg hc]
        congr 1
        exact ih cs.length (by omega) g1 g2 cs rfl (by omega) (by omega)

theorem subDigitRuns_cons_nondigit (t : Nat → Int) (c : Char) (l : List Char)
    (h : c.isDigit = false) : subDigitRuns t (c :: l) = c :: subDigitRuns t l := by
  unfold subDigitRuns
  rw [show (c :: l).length + 1 = (l.length + 1) + 1 from by simp]
  simp only [sdrAux]
  rw [if_neg (by simp [h])]

theorem subDigitRuns_append_nondigit (t : Nat → Int) : ∀ (l r : List Char),
    (∀ c ∈ l, c.isDigit = false) →
    subDigitRuns t (l ++ r) = l ++ subDigitRuns t r := by
  intro l
  induction l with
  | nil => intro r _; simp
  | cons c cs ih =>
    intro r h
    rw [List.cons_append, subDigitRuns_cons_nondigit t c _ (h c (by simp))]
    rw [ih r (fun x hx => h x (by simp [hx]))]
    simp

theorem subDigitRuns_run (t : Nat → Int) (d : Char) (dt rest : List Char)
    (hd : d.isDigit = true) (hdt : ∀ c ∈ dt, c.isDigit = true)
    (hrest : ∀ c ∈ rest.take 1, c.isDigit = false) :
    subDigitRuns t ((d :: dt) ++ rest) =
      (toString (t (digitsToNat (d :: dt)))).data ++ subDigitRuns t rest := by
  unfold subDigitRuns
  rw [show (d :: dt) ++ rest = d :: (dt ++ rest) from rfl]
  rw [show (d :: (dt ++ rest)).length + 1 = ((dt ++ rest).length + 1) + 1 from by simp]
  simp only [sdrAux]
  rw [if_pos hd]
  rw [takeWhile_append_eq Char.isDigit dt rest hdt hrest]
  rw [dropWhile_append_eq Char.isDigit dt rest hdt hrest]
  congr 1
  exact sdrAux_mono t rest.length ((dt ++ rest).length + 1) (rest.length + 1) rest rfl
    (by simp only [List.length_append]; omega) (by omega)

theorem subDigitRuns_segs (t : Nat → Int) : ∀ segs : List Seg, segsWF segs = true →
    subDigitRuns t (renderSegs segs) = (segs.map (applySeg t)).flatten := by
  intro segs
  induction segs with
  | nil => intro _; rfl
  | cons sg rest ih =>
    intro hwf
    cases sg with
    | txt l =>
      simp only [segsWF, Bool.and_eq_true] at hwf
      obtain ⟨⟨hne, hall⟩, hrest⟩ := hwf
      have hnd : ∀ c ∈ l, c.isDigit = false := by
        intro c hc
        have := (List.all_eq_true.mp hall) c hc
        simpa using this
      rw [show renderSegs (Seg.txt l :: rest) = l ++ renderSegs rest from by
        simp [renderSegs, renderSeg]]
      rw [show (List.map (applySeg t) (Seg.txt l :: rest)).flatten =
          l ++ (List.map (applySeg t) rest).flatten from by simp [applySeg]]
      rw [subDigitRuns_append_nondigit t l (renderSegs rest) hnd]
      rw [ih hrest]
    | num ds =>
      simp only [segsWF, Bool.and_eq_true] at hwf
      obtain ⟨⟨⟨hne, hall⟩, hshape⟩, hrest⟩ := hwf
      have hdig : ∀ c ∈ ds, c.isDigit = true := fun c hc => (List.all_eq_true.mp hall) c hc
      have hhead : ∀ c ∈ (renderSegs rest).take 1, c.isDigit = false := by
        cases rest with
        | nil => intro c hc; simp [renderSegs] at hc
        | cons sg2 r2 =>
          cases sg2 with
          | txt l2 =>
            simp only [segsWF, Bool.and_eq_true] at hrest
            obtain ⟨⟨hne2, hall2⟩, _⟩ := hrest
            cases l2 with
            | nil => simp at hne2
            | cons x xs =>
              intro c hc
              rw [show renderSegs (Seg.txt (x :: xs) :: r2) = (x :: xs) ++ renderSegs r2 from by
                simp [renderSegs, renderSeg]] at hc
              simp only [List.cons_append, List.take_succ_cons, List.take_zero,
                List.mem_singleton] at hc
              subst hc
              have := (List.all_eq_true.mp hall2) c (by simp)
              simpa using this
          | num ds2 => simp at hshape
      cases ds with
      | nil => simp at hne
      | cons d dt =>
        rw [show renderSegs (Seg.num (d :: dt) :: rest) = (d :: dt) ++ renderSegs rest from by
          simp [renderSegs, renderSeg]]
        rw [subDigitRuns_run t d dt (renderSegs rest) (hdig d (by simp))
          (fun c hc => hdig c (by simp [hc])) hhead]
        rw [ih hrest]
        simp [applySeg]

/-- C7.  In function mode, whenever the definition of `varname` is found
(with `def` group spanning `[a, b)` of the file text) and the definition
body decomposes into literal runs and digit-free text, the processed file
is exactly: the text before the body, then the body with every integer
literal `run` replaced by `str(int(f_round(func(float(run)))))` (the
composite transformation `t`) and all other characters kept, then the text
after the body — no index-path lookup and no old-value comparison take
place, and text outside the `def` group is unchanged. -/
theorem process_function_rewrites_literals (repo : Repository) (varname : List Char)
    (t : Nat → Int) (m : RMatch) (j : Nat) (a b : Nat) (segs : List Seg)
    (h1 : repo.search_def varname false = some (m, j))
    (h2 : m.groupSpan gDef = some (a, b))
    (h3 : segsWF segs = true)
    (h4 : (m.str.take b).drop a = renderSegs segs) :
    processFunctionMatch varname t repo =
      repo.writeAt j (m.str.take a ++ (segs.map (applySeg t)).flatten ++ m.str.drop b) := by
  simp only [processFunctionMatch, h1, h2]
  rw [h4, subDigitRuns_segs t segs h3]

/-- Witness for C7: doubling every literal of `int razor[2] = {100, 200};`
gives `int razor[2] = {200, 400};`. -/
theorem process_function_rewrites_literals_witness :
    processFunctionMatch "razor".data (fun n => 2 * (n : Int)) repoRazor =
      ⟨[⟨"search.cpp", fileRazor, "int razor[2] = \x7b200, 400\x7d;\n".data⟩]⟩ :=
  (process_function_rewrites_literals repoRazor "razor".data (fun n => 2 * (n : Int))
    mRazor 0 14 25 segsRazor (by decide) (by decide) (by decide) (by decide)).trans
    (by decide)
